import Mathlib

/-!
Verification of the bounded concurrent executor of `mdfm`
(`internal/concurrent/run_all.go` and `internal/concurrent/options.go`).

The executor runs a list of tasks in goroutines, bounded by a weighted
semaphore, and either collects the outcomes into an index-aligned slice
(`RunAll`) or streams them through a buffered channel (`RunAllStream`).
We embed the data types and the goroutine bodies shallowly, and model the
interleaving of the goroutines, the semaphore and the channel as a labelled
transition system; the claimed properties are proved as invariants of all
reachable states of that system.
-/

namespace Mdfm.Concurrent

/-- Go `error` values are modelled by their message string; `none` is Go's
nil error (run_all.go builds every non-nil error with `fmt.Errorf`). -/
abbrev GoErr := Option String

/-- Behaviour of a Go task function `func() (T, error)` (run_all.go line 15):
it either returns a pair of a value and an error, or panics with a
description (the `%v` rendering of the recovered value). -/
inductive RunBehavior (T : Type) where
  | ret (v : T) (e : GoErr)
  | panics (msg : String)
deriving DecidableEq

/-- `Task` combines a task function with its metadata (run_all.go lines 13-16). -/
structure Task (T M : Type) where
  Metadata : M
  Run : RunBehavior T
deriving DecidableEq

/-- `taskResult` represents the outcome of a task execution
(run_all.go lines 25-28). -/
structure taskResult (T : Type) where
  Value : T
  Err : GoErr
deriving DecidableEq

/-- `TaskExecution` combines task metadata with its execution result
(run_all.go lines 19-22). -/
structure TaskExecution (T M : Type) where
  Metadata : M
  Result : taskResult T
deriving DecidableEq

/-- Outcome written by the worker goroutine body once the semaphore was
acquired (run_all.go lines 67-88, identical in `RunAllStream` lines 135-155):
a panic is recovered and stored as the zero value of `T` together with an
error message prefixed `panic: `; a normal return stores the returned value
and error exactly as returned (`Value: v, Err: err`). Go's zero value of `T`
is modelled by `default`. -/
def execOutcome {T M : Type} [Inhabited T] (t : Task T M) : TaskExecution T M :=
  match t.Run with
  | .ret v e => ⟨t.Metadata, ⟨v, e⟩⟩
  | .panics msg => ⟨t.Metadata, ⟨default, some ("panic: " ++ msg)⟩⟩

/-- Outcome written when `sem.Acquire` returns an error (run_all.go
lines 55-63 and 123-131): the zero value of `T` and the error
`semaphore acquire failed: <ctx error>`. -/
def semFailOutcome {T M : Type} [Inhabited T] (ctxErr : String) (t : Task T M) :
    TaskExecution T M :=
  ⟨t.Metadata, ⟨default, some ("semaphore acquire failed: " ++ ctxErr)⟩⟩

/-! ### Options (options.go) -/

/-- The `concurrency` option struct (options.go lines 4-6). Go's
`maxConcurrency` field has type `int64`, modelled by `Int`. -/
structure concurrency where
  maxConcurrency : Int
deriving DecidableEq

/-- `defaultMaxConcurrency` (options.go line 12). -/
def defaultMaxConcurrency : Int := 10

/-- Initial value of the package-level `defaultOpts` variable
(options.go lines 15-20). -/
def defaultOpts : concurrency :=
  concurrency.mk defaultMaxConcurrency

/-- A `ConcurrencyOptions` closure mutates the struct it is applied to
(options.go line 8); we model the mutation functionally. -/
abbrev ConcurrencyOptions := concurrency → concurrency

/-- `WithMaxConcurrency` (options.go lines 23-27) sets the field of the
struct the returned closure is applied to. -/
def WithMaxConcurrency (n : Int) : ConcurrencyOptions :=
  fun _ => concurrency.mk n

/-- `setOpts` (options.go lines 29-35). In Go, `opts := defaultOpts` copies
the POINTER to the package-level struct, and every option closure then
mutates the shared struct through that pointer. We therefore thread the
package-level state explicitly: given the current pointee `g` of
`defaultOpts`, a call returns the options it observes together with the
pointee after the call; the two coincide because the returned `opts` is an
alias of `defaultOpts`. -/
def setOpts (options : List ConcurrencyOptions) (g : concurrency) :
    concurrency × concurrency :=
  let r := options.foldl (fun s o => o s) g
  (r, r)

/-! ### The interleaving model

Each spawned goroutine of `RunAll` / `RunAllStream` is at one of three
program points: before `sem.Acquire` (`waiting`), between a successful
acquire and its release (`running`, the whole span during which the task
holds a semaphore unit: it covers the call to `task.Run()`), or finished
(`done`). The weighted semaphore of capacity `maxConcurrency` is represented
by its invariant: the number of goroutines in state `running` is the number
of held units. `context.Background()` is never done, so the `Acquire` error
branch is guarded by a `ctxDone` parameter that the real calls instantiate
with `false`. The ghost fields `runs` (per-index count of invocations of
`task.Run()`) and `semFails` (count of executions of the
`semaphore acquire failed` branch) instrument the execution. -/

inductive PC where
  | waiting
  | running
  | done
deriving DecidableEq

/-- Weight 1 for a goroutine currently holding a semaphore unit. -/
def runWeight (pc : PC) : Nat :=
  if pc = PC.running then 1 else 0

/-- Weight 1 for a goroutine that has finished. -/
def doneWeight (pc : PC) : Nat :=
  if pc = PC.done then 1 else 0

/-- Number of goroutines currently holding a semaphore unit, i.e. inside the
span from `sem.Acquire` success to `sem.Release` that contains `task.Run()`. -/
def countRunning (pcs : List PC) : Nat :=
  (pcs.map runWeight).sum

/-- Number of goroutines that have finished. -/
def countDone (pcs : List PC) : Nat :=
  (pcs.map doneWeight).sum

/-- `context.Background().Done()` is never ready (run_all.go lines 42, 109). -/
def backgroundCtxDone : Bool := false

/-- Placeholder for the message of `ctx.Err()` in the acquire-failure branch;
the branch is unreachable for the background context, so the message is
irrelevant to every property proved below. -/
def ctxErrMsg : String := "context canceled"

/-! ### Batch mode: `RunAll` (run_all.go lines 39-93) -/

/-- State of one `RunAll` call: the program counters of the `len tasks`
spawned goroutines, the `results` slice (a cell is `none` until its
goroutine writes it; each goroutine writes only its own index, line 38's
comment), and the ghost instrumentation. -/
structure BatchState (T M : Type) where
  pcs : List PC
  results : List (Option (TaskExecution T M))
  runs : List Nat
  semFails : Nat
deriving DecidableEq

/-- State right after the spawn loop: every goroutine is before its
`sem.Acquire`, no result cell is written. -/
def batchInit (T M : Type) (n : Nat) : BatchState T M :=
  ⟨List.replicate n PC.waiting, List.replicate n none, List.replicate n 0, 0⟩

/-- One interleaving step of a `RunAll` call with tasks `tasks`, semaphore
capacity `c` (the `maxConcurrency` of the call, an `int64`), and a context
whose done-ness is `ctxDone`.

* `acquire`: goroutine `i`, still before `sem.Acquire`, succeeds in
  acquiring one unit (run_all.go line 55, success path): possible exactly
  when the context is not done and a unit is free (`countRunning < c`).
* `acquireFail`: `sem.Acquire` returns an error, which for the semaphore of
  `golang.org/x/sync` requires the context to be done; goroutine `i` writes
  the `semaphore acquire failed` outcome and returns (lines 55-64).
* `finish`: goroutine `i`, holding a unit, invokes `task.Run()` (counted in
  the ghost field `runs`), writes its outcome to its own cell `i`
  (lines 67-88) and releases the unit (deferred line 65). -/
inductive BatchStep {T M : Type} [Inhabited T] (tasks : List (Task T M))
    (c : Int) (ctxDone : Bool) :
    BatchState T M → BatchState T M → Prop where
  | acquire (i : Nat) (s : BatchState T M)
      (hpc : s.pcs[i]? = some PC.waiting)
      (hctx : ctxDone = false)
      (hsem : (countRunning s.pcs : Int) < c) :
      BatchStep tasks c ctxDone s
        ⟨s.pcs.set i PC.running, s.results, s.runs, s.semFails⟩
  | acquireFail (i : Nat) (t : Task T M) (s : BatchState T M)
      (hpc : s.pcs[i]? = some PC.waiting)
      (ht : tasks[i]? = some t)
      (hctx : ctxDone = true) :
      BatchStep tasks c ctxDone s
        ⟨s.pcs.set i PC.done,
         s.results.set i (some (semFailOutcome ctxErrMsg t)),
         s.runs, s.semFails + 1⟩
  | finish (i : Nat) (t : Task T M) (s : BatchState T M)
      (hpc : s.pcs[i]? = some PC.running)
      (ht : tasks[i]? = some t) :
      BatchStep tasks c ctxDone s
        ⟨s.pcs.set i PC.done,
         s.results.set i (some (execOutcome t)),
         s.runs.set i (s.runs[i]?.getD 0 + 1), s.semFails⟩

/-- Reflexive-transitive closure of a step relation from a fixed start. -/
inductive Reach {σ : Type} (step : σ → σ → Prop) (s₀ : σ) : σ → Prop where
  | refl : Reach step s₀ s₀
  | tail {s₁ s₂ : σ} : Reach step s₀ s₁ → step s₁ s₂ → Reach step s₀ s₂

/-- States a `RunAll` call can reach. `RunAll` acquires with
`context.Background()` (line 42), so `ctxDone` is `backgroundCtxDone`. -/
def RunAllReach {T M : Type} [Inhabited T] (tasks : List (Task T M))
    (c : Int) : BatchState T M → Prop :=
  Reach (BatchStep tasks c backgroundCtxDone) (batchInit T M tasks.length)

/-- `wg.Wait()` (line 91) returns exactly when every goroutine is finished;
`RunAll` then returns `s.results`. -/
def BatchTerminal {T M : Type} (s : BatchState T M) : Prop :=
  ∀ pc ∈ s.pcs, pc = PC.done

instance {T M : Type} (s : BatchState T M) : Decidable (BatchTerminal s) :=
  List.decidableBAll _ s.pcs

/-! ### Stream mode: `RunAllStream` (run_all.go lines 106-166) -/

/-- State of one `RunAllStream` call: goroutine program counters, the
contents of the buffered channel `resultChan` in send order (the channel is
created with capacity `len(tasks)`, line 112, and we model the worst case of
a consumer that never receives, so the buffer only grows), whether the
channel has been closed (line 162), and the ghost instrumentation. -/
structure StreamState (T M : Type) where
  pcs : List PC
  sent : List (TaskExecution T M)
  closed : Bool
  runs : List Nat
  semFails : Nat
deriving DecidableEq

/-- State right after `RunAllStream` returns the channel: every goroutine is
before its `sem.Acquire`, nothing sent, channel open. -/
def streamInit (T M : Type) (n : Nat) : StreamState T M :=
  ⟨List.replicate n PC.waiting, [], false, List.replicate n 0, 0⟩

/-- One interleaving step of a `RunAllStream` call. `acquire`, `acquireFail`
and `finish` mirror `BatchStep`, except that an outcome is sent on the
buffered channel (lines 124-130, 138-145, 149-155) instead of being written
to a slice: a send needs a free buffer slot (`sent.length < tasks.length`,
capacity from line 112). `closeChan` is the closing goroutine (lines
160-163): once `wg.Wait()` returns, i.e. all workers are done, it closes the
channel. -/
inductive StreamStep {T M : Type} [Inhabited T] (tasks : List (Task T M))
    (c : Int) (ctxDone : Bool) :
    StreamState T M → StreamState T M → Prop where
  | acquire (i : Nat) (s : StreamState T M)
      (hpc : s.pcs[i]? = some PC.waiting)
      (hctx : ctxDone = false)
      (hsem : (countRunning s.pcs : Int) < c) :
      StreamStep tasks c ctxDone s
        ⟨s.pcs.set i PC.running, s.sent, s.closed, s.runs, s.semFails⟩
  | acquireFail (i : Nat) (t : Task T M) (s : StreamState T M)
      (hpc : s.pcs[i]? = some PC.waiting)
      (ht : tasks[i]? = some t)
      (hctx : ctxDone = true)
      (hbuf : s.sent.length < tasks.length) :
      StreamStep tasks c ctxDone s
        ⟨s.pcs.set i PC.done, s.sent ++ [semFailOutcome ctxErrMsg t],
         s.closed, s.runs, s.semFails + 1⟩
  | finish (i : Nat) (t : Task T M) (s : StreamState T M)
      (hpc : s.pcs[i]? = some PC.running)
      (ht : tasks[i]? = some t)
      (hbuf : s.sent.length < tasks.length) :
      StreamStep tasks c ctxDone s
        ⟨s.pcs.set i PC.done, s.sent ++ [execOutcome t], s.closed,
         s.runs.set i (s.runs[i]?.getD 0 + 1), s.semFails⟩
  | closeChan (s : StreamState T M)
      (hall : ∀ pc ∈ s.pcs, pc = PC.done)
      (hopen : s.closed = false) :
      StreamStep tasks c ctxDone s
        ⟨s.pcs, s.sent, true, s.runs, s.semFails⟩

/-- States a `RunAllStream` call can reach; the context is
`context.Background()` (line 109). -/
def RunAllStreamReach {T M : Type} [Inhabited T] (tasks : List (Task T M))
    (c : Int) : StreamState T M → Prop :=
  Reach (StreamStep tasks c backgroundCtxDone) (streamInit T M tasks.length)

/-- The call is over: all workers finished and the channel is closed. -/
def StreamTerminal {T M : Type} (s : StreamState T M) : Prop :=
  (∀ pc ∈ s.pcs, pc = PC.done) ∧ s.closed = true

instance {T M : Type} (s : StreamState T M) : Decidable (StreamTerminal s) :=
  instDecidableAnd

/-- Outcomes of the goroutines that have finished, in index order
(used to characterise the multiset of sent outcomes). -/
def doneOuts {T M : Type} [Inhabited T] :
    List (Task T M) → List PC → List (TaskExecution T M)
  | t :: ts, pc :: pcs =>
      (if pc = PC.done then [execOutcome t] else []) ++ doneOuts ts pcs
  | _, _ => []

/-! ### Helper lemmas -/

lemma runWeight_waiting : runWeight PC.waiting = 0 := by decide

lemma runWeight_running : runWeight PC.running = 1 := by decide

lemma runWeight_done : runWeight PC.done = 0 := by decide

lemma sum_map_set (f : PC → Nat) :
    ∀ (pcs : List PC) (i : Nat) {old : PC} (v : PC), pcs[i]? = some old →
      ((pcs.set i v).map f).sum + f old = (pcs.map f).sum + f v
  | [], _, _, _, h => by simp at h
  | pc :: rest, 0, old, v, h => by
      simp only [List.getElem?_cons_zero, Option.some_inj] at h
      subst h
      simp only [List.set_cons_zero, List.map_cons, List.sum_cons]
      omega
  | pc :: rest, i + 1, old, v, h => by
      simp only [List.getElem?_cons_succ] at h
      have ih := sum_map_set f rest i v h
      simp only [List.set_cons_succ, List.map_cons, List.sum_cons]
      omega

lemma countRunning_set_acquire {pcs : List PC} {i : Nat}
    (h : pcs[i]? = some PC.waiting) :
    countRunning (pcs.set i PC.running) = countRunning pcs + 1 := by
  have hs := sum_map_set runWeight pcs i PC.running h
  simp only [runWeight_waiting, runWeight_running] at hs
  simpa [countRunning] using hs

lemma countRunning_set_finish {pcs : List PC} {i : Nat}
    (h : pcs[i]? = some PC.running) :
    countRunning (pcs.set i PC.done) + 1 = countRunning pcs := by
  have hs := sum_map_set runWeight pcs i PC.done h
  simp only [runWeight_running, runWeight_done] at hs
  simpa [countRunning] using hs

lemma countRunning_set_skip {pcs : List PC} {i : Nat}
    (h : pcs[i]? = some PC.waiting) :
    countRunning (pcs.set i PC.done) = countRunning pcs := by
  have hs := sum_map_set runWeight pcs i PC.done h
  simp only [runWeight_waiting, runWeight_done] at hs
  simpa [countRunning] using hs

lemma countRunning_replicate_waiting (n : Nat) :
    countRunning (List.replicate n PC.waiting) = 0 := by
  simp [countRunning, runWeight_waiting]

lemma lt_of_getElem?_some {α : Type} {l : List α} {i : Nat} {a : α}
    (h : l[i]? = some a) : i < l.length :=
  (List.getElem?_eq_some_iff.mp h).1

/-! ### Invariant of the `RunAll` machine (background context) -/

/-- Invariant of every state a `RunAll` call can reach: each finished
goroutine `i` has written exactly `execOutcome tasks[i]` to cell `i` and has
invoked its `Run` exactly once; an unfinished goroutine has written nothing
and has not invoked `Run`; the acquire-failure branch never executed. -/
def BatchInv {T M : Type} [Inhabited T] (tasks : List (Task T M))
    (s : BatchState T M) : Prop :=
  s.pcs.length = tasks.length ∧
  s.results.length = tasks.length ∧
  s.runs.length = tasks.length ∧
  s.semFails = 0 ∧
  ∀ i : Nat, i < tasks.length →
    ((s.pcs[i]? = some PC.done →
        ∃ t, tasks[i]? = some t ∧
          s.results[i]? = some (some (execOutcome t)) ∧ s.runs[i]? = some 1) ∧
     (s.pcs[i]? ≠ some PC.done →
        s.results[i]? = some none ∧ s.runs[i]? = some 0))

lemma batchInv_init {T M : Type} [Inhabited T] (tasks : List (Task T M)) :
    BatchInv tasks (batchInit T M tasks.length) := by
  refine ⟨by simp [batchInit], by simp [batchInit], by simp [batchInit], rfl, ?_⟩
  intro i hi
  constructor
  · intro hpc
    simp [batchInit, List.getElem?_replicate, hi] at hpc
  · intro _
    simp [batchInit, List.getElem?_replicate, hi]

lemma batchInv_step {T M : Type} [Inhabited T] {tasks : List (Task T M)}
    {c : Int} {s₁ s₂ : BatchState T M}
    (hstep : BatchStep tasks c backgroundCtxDone s₁ s₂)
    (hinv : BatchInv tasks s₁) : BatchInv tasks s₂ := by
  obtain ⟨hlp, hlr, hlu, hsf, hat⟩ := hinv
  cases hstep with
  | acquire i _ hpc hctx hsem =>
      refine ⟨by simpa using hlp, hlr, hlu, hsf, ?_⟩
      intro j hj
      by_cases hij : i = j
      · subst hij
        have hi : i < s₁.pcs.length := lt_of_getElem?_some hpc
        constructor
        · intro hd
          rw [List.getElem?_set_self hi] at hd
          simp at hd
        · intro _
          have hold := (hat i hj).2 (by rw [hpc]; simp)
          exact hold
      · have hcopy : (s₁.pcs.set i PC.running)[j]? = s₁.pcs[j]? :=
          List.getElem?_set_ne hij
        constructor
        · intro hd
          rw [hcopy] at hd
          exact (hat j hj).1 hd
        · intro hd
          rw [hcopy] at hd
          exact (hat j hj).2 hd
  | acquireFail i t _ hpc ht hctx =>
      simp [backgroundCtxDone] at hctx
  | finish i t _ hpc ht =>
      have hi : i < s₁.pcs.length := lt_of_getElem?_some hpc
      have hit : i < tasks.length := by omega
      have hold := (hat i hit).2 (by rw [hpc]; simp)
      refine ⟨by simpa using hlp, by simpa using hlr, by simpa using hlu,
        hsf, ?_⟩
      intro j hj
      by_cases hij : i = j
      · subst hij
        constructor
        · intro _
          refine ⟨t, ht, ?_, ?_⟩
          · rw [List.getElem?_set_self (by omega)]
          · rw [List.getElem?_set_self (by omega)]
            rw [hold.2]
            simp
        · intro hd
          rw [List.getElem?_set_self hi] at hd
          simp at hd
      · have hcp : (s₁.pcs.set i PC.done)[j]? = s₁.pcs[j]? :=
          List.getElem?_set_ne hij
        have hcr : (s₁.results.set i (some (execOutcome t)))[j]? =
            s₁.results[j]? := List.getElem?_set_ne hij
        have hcu : (s₁.runs.set i (s₁.runs[i]?.getD 0 + 1))[j]? = s₁.runs[j]? :=
          List.getElem?_set_ne hij
        constructor
        · intro hd
          rw [hcp] at hd
          obtain ⟨t₂, h₁, h₂, h₃⟩ := (hat j hj).1 hd
          exact ⟨t₂, h₁, by rw [hcr]; exact h₂, by rw [hcu]; exact h₃⟩
        · intro hd
          rw [hcp] at hd
          obtain ⟨h₁, h₂⟩ := (hat j hj).2 hd
          exact ⟨by rw [hcr]; exact h₁, by rw [hcu]; exact h₂⟩

lemma batchInv_reach {T M : Type} [Inhabited T] {tasks : List (Task T M)}
    {c : Int} {s : BatchState T M} (h : RunAllReach tasks c s) :
    BatchInv tasks s := by
  induction h with
  | refl => exact batchInv_init tasks
  | tail _ hstep ih => exact batchInv_step hstep ih

/-- In a terminal state the results slice is exactly the input tasks mapped
through the goroutine body, in input order. -/
lemma batch_final_results {T M : Type} [Inhabited T]
    {tasks : List (Task T M)} {c : Int} {s : BatchState T M}
    (h : RunAllReach tasks c s) (hterm : BatchTerminal s) :
    s.results = tasks.map (fun t => some (execOutcome t)) := by
  obtain ⟨hlp, hlr, _, _, hat⟩ := batchInv_reach h
  apply List.ext_getElem?
  intro i
  by_cases hi : i < tasks.length
  · have hip : i < s.pcs.length := by omega
    have hpc : s.pcs[i]? = some s.pcs[i] := List.getElem?_eq_getElem hip
    have hd : s.pcs[i]? = some PC.done := by
      rw [hpc, hterm _ (List.getElem?_mem hpc)]
    obtain ⟨t, h₁, h₂, _⟩ := (hat i hi).1 hd
    rw [h₂, List.getElem?_map, h₁]
    rfl
  · have h₁ : s.results[i]? = none := List.getElem?_eq_none (by omega)
    have h₂ : (tasks.map (fun t => some (execOutcome t)))[i]? = none :=
      List.getElem?_eq_none (by simpa using (by omega : tasks.length ≤ i))
    rw [h₁, h₂]

/-- The number of goroutines holding a semaphore unit never exceeds the
(nonnegative part of the) capacity, along every `RunAll` interleaving. -/
lemma batch_countRunning_le {T M : Type} [Inhabited T]
    {tasks : List (Task T M)} {c : Int} {s : BatchState T M}
    (h : RunAllReach tasks c s) :
    (countRunning s.pcs : Int) ≤ max c 0 := by
  induction h with
  | refl =>
      have h₀ : countRunning (batchInit T M tasks.length).pcs = 0 :=
        countRunning_replicate_waiting _
      rw [h₀]
      simp
  | @tail s₁ s₂ _ hstep ih =>
      cases hstep with
      | acquire i _ hpc hctx hsem =>
          have h₁ := countRunning_set_acquire hpc
          rw [h₁]
          have h₂ : ((countRunning s₁.pcs + 1 : Nat) : Int) ≤ c := by
            push_cast
            omega
          exact le_trans h₂ (le_max_left c 0)
      | acquireFail i t _ hpc ht hctx =>
          simp [backgroundCtxDone] at hctx
      | finish i t _ hpc ht =>
          have h₁ := countRunning_set_finish hpc
          have h₂ : countRunning (s₁.pcs.set i PC.done) ≤ countRunning s₁.pcs := by
            omega
          exact le_trans (by exact_mod_cast h₂) ih

/-! ### Lemmas about `doneOuts` and the counters -/

lemma doneWeight_eq_one {pc : PC} (h : pc = PC.done) : doneWeight pc = 1 := by
  subst h
  decide

lemma doneWeight_eq_zero {pc : PC} (h : pc ≠ PC.done) : doneWeight pc = 0 := by
  simp [doneWeight, h]

lemma doneWeight_le_one (pc : PC) : doneWeight pc ≤ 1 := by
  cases pc <;> decide

lemma countDone_le_length : ∀ pcs : List PC, countDone pcs ≤ pcs.length
  | [] => Nat.le_refl 0
  | pc :: rest => by
      have h₁ := doneWeight_le_one pc
      have h₂ := countDone_le_length rest
      simp only [countDone, List.map_cons, List.sum_cons, List.length_cons]
        at h₂ ⊢
      omega

lemma countDone_lt_length :
    ∀ (pcs : List PC) (i : Nat) (pc₀ : PC),
      pcs[i]? = some pc₀ → pc₀ ≠ PC.done → countDone pcs < pcs.length
  | [], _, _, h, _ => by simp at h
  | pc :: rest, 0, pc₀, h, hne => by
      simp only [List.getElem?_cons_zero, Option.some_inj] at h
      subst h
      have h₁ := doneWeight_eq_zero hne
      have h₂ := countDone_le_length rest
      simp only [countDone, List.map_cons, List.sum_cons, List.length_cons]
        at h₂ ⊢
      omega
  | pc :: rest, i + 1, pc₀, h, hne => by
      simp only [List.getElem?_cons_succ] at h
      have h₁ := countDone_lt_length rest i pc₀ h hne
      have h₂ := doneWeight_le_one pc
      simp only [countDone, List.map_cons, List.sum_cons, List.length_cons]
        at h₁ ⊢
      omega

lemma countRunning_eq_zero {pcs : List PC}
    (h : ∀ j : Nat, pcs[j]? ≠ some PC.running) : countRunning pcs = 0 := by
  induction pcs with
  | nil => rfl
  | cons pc rest ih =>
      have hpc : pc ≠ PC.running := by
        intro hx
        exact h 0 (by simp [hx])
      have hr := ih (fun j => by simpa using h (j + 1))
      simp only [countRunning, List.map_cons, List.sum_cons] at hr ⊢
      simp [runWeight, hpc, hr]

lemma doneOuts_nil_left {T M : Type} [Inhabited T] (pcs : List PC) :
    doneOuts ([] : List (Task T M)) pcs = [] := by
  cases pcs <;> rfl

lemma doneOuts_nil_right {T M : Type} [Inhabited T]
    (tasks : List (Task T M)) : doneOuts tasks ([] : List PC) = [] := by
  cases tasks <;> rfl

lemma doneOuts_eq_nil {T M : Type} [Inhabited T] :
    ∀ (tasks : List (Task T M)) (pcs : List PC),
      (∀ pc ∈ pcs, pc ≠ PC.done) → doneOuts tasks pcs = []
  | [], pcs, _ => doneOuts_nil_left pcs
  | _ :: _, [], _ => rfl
  | t :: ts, pc :: rest, h => by
      simp only [doneOuts]
      rw [if_neg (h pc (by simp))]
      simpa using doneOuts_eq_nil ts rest (fun q hq => h q (by simp [hq]))

lemma doneOuts_all_done {T M : Type} [Inhabited T] :
    ∀ (tasks : List (Task T M)) (pcs : List PC), pcs.length = tasks.length →
      (∀ pc ∈ pcs, pc = PC.done) →
      doneOuts tasks pcs = tasks.map (fun t => execOutcome t)
  | [], [], _, _ => rfl
  | [], _ :: _, h, _ => by simp at h
  | _ :: _, [], h, _ => by simp at h
  | t :: ts, pc :: rest, h, hall => by
      have hpc : pc = PC.done := hall pc (by simp)
      subst hpc
      simp only [doneOuts, List.map_cons, if_pos rfl]
      rw [doneOuts_all_done ts rest (by simpa using h)
        (fun q hq => hall q (by simp [hq]))]
      simp

lemma doneOuts_length {T M : Type} [Inhabited T] :
    ∀ (tasks : List (Task T M)) (pcs : List PC), pcs.length = tasks.length →
      (doneOuts tasks pcs).length = countDone pcs
  | [], [], _ => rfl
  | [], _ :: _, h => by simp at h
  | _ :: _, [], h => by simp at h
  | t :: ts, pc :: rest, h => by
      have ih := doneOuts_length ts rest (by simpa using h)
      simp only [doneOuts, List.length_append, countDone, List.map_cons,
        List.sum_cons] at ih ⊢
      by_cases hpc : pc = PC.done
      · rw [if_pos hpc, doneWeight_eq_one hpc]
        simp only [List.length_cons, List.length_nil]
        omega
      · rw [if_neg hpc, doneWeight_eq_zero hpc]
        simp only [List.length_nil]
        omega

lemma doneOuts_set_not_done {T M : Type} [Inhabited T] :
    ∀ (tasks : List (Task T M)) (pcs : List PC) (i : Nat) (old v : PC),
      pcs[i]? = some old → old ≠ PC.done → v ≠ PC.done →
      doneOuts tasks (pcs.set i v) = doneOuts tasks pcs
  | [], pcs, i, _, v, _, _, _ => by
      rw [doneOuts_nil_left, doneOuts_nil_left]
  | _ :: _, [], _, _, _, h, _, _ => by simp at h
  | t :: ts, pc :: rest, 0, old, v, h, hold, hv => by
      simp only [List.getElem?_cons_zero, Option.some_inj] at h
      subst h
      simp only [List.set_cons_zero, doneOuts]
      rw [if_neg hv, if_neg hold]
  | t :: ts, pc :: rest, i + 1, old, v, h, hold, hv => by
      simp only [List.getElem?_cons_succ] at h
      simp only [List.set_cons_succ, doneOuts]
      rw [doneOuts_set_not_done ts rest i old v h hold hv]

lemma doneOuts_set_done_perm {T M : Type} [Inhabited T] :
    ∀ (tasks : List (Task T M)) (pcs : List PC) (i : Nat) (t : Task T M)
      (old : PC),
      tasks[i]? = some t → pcs[i]? = some old → old ≠ PC.done →
      List.Perm (doneOuts tasks (pcs.set i PC.done))
        (execOutcome t :: doneOuts tasks pcs)
  | [], _, _, _, _, ht, _, _ => by simp at ht
  | _ :: _, [], _, _, _, _, hp, _ => by simp at hp
  | t₀ :: ts, pc :: rest, 0, t, old, ht, hp, hold => by
      simp only [List.getElem?_cons_zero, Option.some_inj] at ht hp
      subst ht
      subst hp
      simp only [List.set_cons_zero, doneOuts, if_pos rfl]
      rw [if_neg hold]
      simp
  | t₀ :: ts, pc :: rest, i + 1, t, old, ht, hp, hold => by
      simp only [List.getElem?_cons_succ] at ht hp
      have ih := doneOuts_set_done_perm ts rest i t old ht hp hold
      simp only [List.set_cons_succ, doneOuts]
      by_cases hpc : pc = PC.done
      · rw [if_pos hpc]
        exact (List.Perm.append_left _ ih).trans List.perm_middle
      · rw [if_neg hpc]
        simpa using ih

/-! ### Invariant of the `RunAllStream` machine (background context) -/

/-- Invariant of every state a `RunAllStream` call can reach: the multiset
of outcomes sent on the channel is exactly the outcomes of the finished
goroutines, the channel is closed only once every goroutine is finished,
each finished goroutine invoked its `Run` exactly once, and the
acquire-failure branch never executed. -/
def StreamInv {T M : Type} [Inhabited T] (tasks : List (Task T M))
    (s : StreamState T M) : Prop :=
  s.pcs.length = tasks.length ∧
  s.runs.length = tasks.length ∧
  s.semFails = 0 ∧
  List.Perm s.sent (doneOuts tasks s.pcs) ∧
  (s.closed = true → ∀ pc ∈ s.pcs, pc = PC.done) ∧
  ∀ i : Nat, i < tasks.length →
    ((s.pcs[i]? = some PC.done → s.runs[i]? = some 1) ∧
     (s.pcs[i]? ≠ some PC.done → s.runs[i]? = some 0))

lemma streamInv_init {T M : Type} [Inhabited T] (tasks : List (Task T M)) :
    StreamInv tasks (streamInit T M tasks.length) := by
  refine ⟨by simp [streamInit], by simp [streamInit], rfl, ?_, ?_, ?_⟩
  · have h₀ : doneOuts tasks (streamInit T M tasks.length).pcs = [] :=
      doneOuts_eq_nil _ _ (by
        intro pc hpc
        have hx : pc = PC.waiting := by
          simp only [streamInit, List.mem_replicate] at hpc
          exact hpc.2
        subst hx
        simp)
    rw [h₀]
    exact List.Perm.nil
  · intro hcl
    simp [streamInit] at hcl
  · intro i hi
    constructor
    · intro hpc
      simp [streamInit, List.getElem?_replicate, hi] at hpc
    · intro _
      simp [streamInit, List.getElem?_replicate, hi]

lemma streamInv_step {T M : Type} [Inhabited T] {tasks : List (Task T M)}
    {c : Int} {s₁ s₂ : StreamState T M}
    (hstep : StreamStep tasks c backgroundCtxDone s₁ s₂)
    (hinv : StreamInv tasks s₁) : StreamInv tasks s₂ := by
  obtain ⟨hlp, hlu, hsf, hperm, hclo, hat⟩ := hinv
  cases hstep with
  | acquire i _ hpc hctx hsem =>
      refine ⟨by simpa using hlp, hlu, hsf, ?_, ?_, ?_⟩
      · rw [doneOuts_set_not_done tasks s₁.pcs i PC.waiting PC.running hpc
          (by simp) (by simp)]
        exact hperm
      · intro hcl
        have := hclo hcl _ (List.getElem?_mem hpc)
        simp at this
      · intro j hj
        by_cases hij : i = j
        · subst hij
          have hi : i < s₁.pcs.length := lt_of_getElem?_some hpc
          constructor
          · intro hd
            rw [List.getElem?_set_self hi] at hd
            simp at hd
          · intro _
            exact (hat i hj).2 (by rw [hpc]; simp)
        · have hcopy : (s₁.pcs.set i PC.running)[j]? = s₁.pcs[j]? :=
            List.getElem?_set_ne hij
          constructor
          · intro hd
            rw [hcopy] at hd
            exact (hat j hj).1 hd
          · intro hd
            rw [hcopy] at hd
            exact (hat j hj).2 hd
  | acquireFail i t _ hpc ht hctx hbuf =>
      simp [backgroundCtxDone] at hctx
  | finish i t _ hpc ht hbuf =>
      have hi : i < s₁.pcs.length := lt_of_getElem?_some hpc
      have hit : i < tasks.length := by omega
      have hold := (hat i hit).2 (by rw [hpc]; simp)
      refine ⟨by simpa using hlp, by simpa using hlu, hsf, ?_, ?_, ?_⟩
      · have h₁ : List.Perm (s₁.sent ++ [execOutcome t])
            (execOutcome t :: s₁.sent) := List.perm_append_singleton _ _
        have h₂ : List.Perm (execOutcome t :: s₁.sent)
            (execOutcome t :: doneOuts tasks s₁.pcs) := hperm.cons _
        exact (h₁.trans h₂).trans
          (doneOuts_set_done_perm tasks s₁.pcs i t PC.running ht hpc
            (by simp)).symm
      · intro hcl
        have := hclo hcl _ (List.getElem?_mem hpc)
        simp at this
      · intro j hj
        by_cases hij : i = j
        · subst hij
          constructor
          · intro _
            rw [List.getElem?_set_self (by omega), hold]
            simp
          · intro hd
            rw [List.getElem?_set_self hi] at hd
            simp at hd
        · have hcp : (s₁.pcs.set i PC.done)[j]? = s₁.pcs[j]? :=
            List.getElem?_set_ne hij
          have hcu : (s₁.runs.set i (s₁.runs[i]?.getD 0 + 1))[j]? =
              s₁.runs[j]? := List.getElem?_set_ne hij
          constructor
          · intro hd
            rw [hcp] at hd
            rw [hcu]
            exact (hat j hj).1 hd
          · intro hd
            rw [hcp] at hd
            rw [hcu]
            exact (hat j hj).2 hd
  | closeChan _ hall hopen =>
      exact ⟨hlp, hlu, hsf, hperm, fun _ => hall, hat⟩

lemma streamInv_reach {T M : Type} [Inhabited T] {tasks : List (Task T M)}
    {c : Int} {s : StreamState T M} (h : RunAllStreamReach tasks c s) :
    StreamInv tasks s := by
  induction h with
  | refl => exact streamInv_init tasks
  | tail _ hstep ih => exact streamInv_step hstep ih

/-- Once the channel is closed, every goroutine is finished and the channel
contents are a permutation of the outcomes of all the tasks. -/
lemma stream_closed_perm {T M : Type} [Inhabited T]
    {tasks : List (Task T M)} {c : Int} {s : StreamState T M}
    (h : RunAllStreamReach tasks c s) (hcl : s.closed = true) :
    List.Perm s.sent (tasks.map (fun t => execOutcome t)) ∧
      ∀ pc ∈ s.pcs, pc = PC.done := by
  obtain ⟨hlp, _, _, hperm, hclo, _⟩ := streamInv_reach h
  have hall := hclo hcl
  exact ⟨hperm.trans (by rw [doneOuts_all_done tasks s.pcs hlp hall]), hall⟩

/-- The semaphore bound also holds along every `RunAllStream` interleaving. -/
lemma stream_countRunning_le {T M : Type} [Inhabited T]
    {tasks : List (Task T M)} {c : Int} {s : StreamState T M}
    (h : RunAllStreamReach tasks c s) :
    (countRunning s.pcs : Int) ≤ max c 0 := by
  induction h with
  | refl =>
      have h₀ : countRunning (streamInit T M tasks.length).pcs = 0 :=
        countRunning_replicate_waiting _
      rw [h₀]
      simp
  | @tail s₁ s₂ _ hstep ih =>
      cases hstep with
      | acquire i _ hpc hctx hsem =>
          have h₁ := countRunning_set_acquire hpc
          rw [h₁]
          have h₂ : ((countRunning s₁.pcs + 1 : Nat) : Int) ≤ c := by
            push_cast
            omega
          exact le_trans h₂ (le_max_left c 0)
      | acquireFail i t _ hpc ht hctx hbuf =>
          simp [backgroundCtxDone] at hctx
      | finish i t _ hpc ht hbuf =>
          have h₁ := countRunning_set_finish hpc
          have h₂ : countRunning (s₁.pcs.set i PC.done) ≤
              countRunning s₁.pcs := by omega
          exact le_trans (by exact_mod_cast h₂) ih
      | closeChan _ hall hopen => exact ih

/-! ### Termination and progress of the `RunAllStream` machine -/

/-- Remaining work of one goroutine: 2 before the acquire, 1 while holding
the semaphore, 0 once finished. -/
def pcWeight : PC → Nat
  | PC.waiting => 2
  | PC.running => 1
  | PC.done => 0

/-- Remaining work of a whole stream call, including the closing goroutine. -/
def streamMeasure {T M : Type} (s : StreamState T M) : Nat :=
  (s.pcs.map pcWeight).sum + (if s.closed then 0 else 1)

/-- Every step of the stream machine strictly decreases the measure, so no
infinite execution exists: all spawned goroutines terminate. -/
lemma streamMeasure_dec {T M : Type} [Inhabited T] {tasks : List (Task T M)}
    {c : Int} {ctxDone : Bool} {s₁ s₂ : StreamState T M}
    (hstep : StreamStep tasks c ctxDone s₁ s₂) :
    streamMeasure s₂ < streamMeasure s₁ := by
  cases hstep with
  | acquire i _ hpc hctx hsem =>
      have h₁ := sum_map_set pcWeight s₁.pcs i PC.running hpc
      simp only [pcWeight] at h₁
      simp only [streamMeasure]
      omega
  | acquireFail i t _ hpc ht hctx hbuf =>
      have h₁ := sum_map_set pcWeight s₁.pcs i PC.done hpc
      simp only [pcWeight] at h₁
      simp only [streamMeasure]
      omega
  | finish i t _ hpc ht hbuf =>
      have h₁ := sum_map_set pcWeight s₁.pcs i PC.done hpc
      simp only [pcWeight] at h₁
      simp only [streamMeasure]
      omega
  | closeChan _ hall hopen =>
      simp only [streamMeasure, hopen]
      simp

/-- Whenever some goroutine is not finished yet, the channel buffer (of
capacity `tasks.length`, line 112) still has a free slot: no send ever
blocks, even if the consumer never receives. -/
lemma stream_send_space {T M : Type} [Inhabited T]
    {tasks : List (Task T M)} {c : Int} {s : StreamState T M}
    (h : RunAllStreamReach tasks c s) {i : Nat} {pc₀ : PC}
    (hi : s.pcs[i]? = some pc₀) (hne : pc₀ ≠ PC.done) :
    s.sent.length < tasks.length := by
  obtain ⟨hlp, _, _, hperm, _, _⟩ := streamInv_reach h
  have h₁ : s.sent.length = (doneOuts tasks s.pcs).length := hperm.length_eq
  rw [doneOuts_length tasks s.pcs hlp] at h₁
  have h₂ := countDone_lt_length s.pcs i pc₀ hi hne
  omega

/-- From any reachable non-terminal state some step is enabled (capacity at
least 1): the call never deadlocks, even with no consumer. -/
lemma stream_progress {T M : Type} [Inhabited T]
    {tasks : List (Task T M)} {c : Int} (hc : 1 ≤ c) {s : StreamState T M}
    (h : RunAllStreamReach tasks c s) (hnt : ¬ StreamTerminal s) :
    ∃ s₂, StreamStep tasks c backgroundCtxDone s s₂ := by
  obtain ⟨hlp, hlu, hsf, hperm, hclo, hat⟩ := streamInv_reach h
  by_cases hall : ∀ pc ∈ s.pcs, pc = PC.done
  · have hopen : s.closed = false := by
      cases hcb : s.closed
      · rfl
      · exact absurd ⟨hall, hcb⟩ hnt
    exact ⟨_, StreamStep.closeChan s hall hopen⟩
  · push_neg at hall
    obtain ⟨pc₀, hmem, hne⟩ := hall
    obtain ⟨i₀, hi₀⟩ := List.mem_iff_getElem?.mp hmem
    have hspace : s.sent.length < tasks.length := stream_send_space h hi₀ hne
    by_cases hrun : ∃ j : Nat, s.pcs[j]? = some PC.running
    · obtain ⟨j, hj⟩ := hrun
      have hjlen : j < tasks.length := by
        have := lt_of_getElem?_some hj
        omega
      exact ⟨_, StreamStep.finish j tasks[j] s hj
        (List.getElem?_eq_getElem hjlen) hspace⟩
    · push_neg at hrun
      have hzero : countRunning s.pcs = 0 := countRunning_eq_zero hrun
      have hw : pc₀ = PC.waiting := by
        cases pc₀ with
        | waiting => rfl
        | running => exact absurd hi₀ (hrun i₀)
        | done => exact absurd rfl hne
      subst hw
      refine ⟨_, StreamStep.acquire i₀ s hi₀ rfl ?_⟩
      rw [hzero]
      exact_mod_cast lt_of_lt_of_le Int.zero_lt_one hc

/-! ### A concrete execution used to witness the theorems

Two tasks: one returns `(5, nil)`, the other panics with `boom`; the
capacity is 2. We exhibit one complete interleaving of each executor. -/

def demoTask : Task Nat Nat := ⟨7, RunBehavior.ret 5 none⟩

def panicDemoTask : Task Nat Nat := ⟨9, RunBehavior.panics "boom"⟩

def demoTasks : List (Task Nat Nat) := [demoTask, panicDemoTask]

def bDemo1 : BatchState Nat Nat :=
  ⟨[PC.running, PC.waiting], [none, none], [0, 0], 0⟩

def bDemo2 : BatchState Nat Nat :=
  ⟨[PC.done, PC.waiting], [some ⟨7, ⟨5, none⟩⟩, none], [1, 0], 0⟩

def bDemo3 : BatchState Nat Nat :=
  ⟨[PC.done, PC.running], [some ⟨7, ⟨5, none⟩⟩, none], [1, 0], 0⟩

def batchDemoFinal : BatchState Nat Nat :=
  ⟨[PC.done, PC.done],
   [some ⟨7, ⟨5, none⟩⟩, some ⟨9, ⟨0, some "panic: boom"⟩⟩], [1, 1], 0⟩

lemma batchDemoTrace : RunAllReach demoTasks 2 batchDemoFinal :=
  Reach.tail
    (Reach.tail
      (Reach.tail
        (Reach.tail Reach.refl
          (BatchStep.acquire 0 (batchInit Nat Nat 2) (by decide) rfl
            (by decide)))
        (BatchStep.finish 0 demoTask bDemo1 (by decide) (by decide)))
      (BatchStep.acquire 1 bDemo2 (by decide) rfl (by decide)))
    (BatchStep.finish 1 panicDemoTask bDemo3 (by decide) (by decide))

def sDemo1 : StreamState Nat Nat :=
  ⟨[PC.running, PC.waiting], [], false, [0, 0], 0⟩

def sDemo2 : StreamState Nat Nat :=
  ⟨[PC.done, PC.waiting], [⟨7, ⟨5, none⟩⟩], false, [1, 0], 0⟩

def sDemo3 : StreamState Nat Nat :=
  ⟨[PC.done, PC.running], [⟨7, ⟨5, none⟩⟩], false, [1, 0], 0⟩

def sDemo4 : StreamState Nat Nat :=
  ⟨[PC.done, PC.done], [⟨7, ⟨5, none⟩⟩, ⟨9, ⟨0, some "panic: boom"⟩⟩],
   false, [1, 1], 0⟩

def streamDemoFinal : StreamState Nat Nat :=
  ⟨[PC.done, PC.done], [⟨7, ⟨5, none⟩⟩, ⟨9, ⟨0, some "panic: boom"⟩⟩],
   true, [1, 1], 0⟩

lemma streamDemoTrace : RunAllStreamReach demoTasks 2 streamDemoFinal :=
  Reach.tail
    (Reach.tail
      (Reach.tail
        (Reach.tail
          (Reach.tail Reach.refl
            (StreamStep.acquire 0 (streamInit Nat Nat 2) (by decide) rfl
              (by decide)))
          (StreamStep.finish 0 demoTask sDemo1 (by decide) (by decide)
            (by decide)))
        (StreamStep.acquire 1 sDemo2 (by decide) rfl (by decide)))
      (StreamStep.finish 1 panicDemoTask sDemo3 (by decide) (by decide)
        (by decide)))
    (StreamStep.closeChan sDemo4 (by decide) rfl)

/-! ### The claims -/

/-- C1: for every finite task list, whatever interleaving a `RunAll` call
takes, at the point where `wg.Wait()` returns (every goroutine done) the
returned slice has the same length as the input, its `i`-th cell holds
exactly the outcome produced by task `i`'s `Run` function, and the outcome
carries task `i`'s metadata; on the empty list the initial state is already
terminal with an empty result slice. -/
theorem runAll_results_index_aligned {T M : Type} [Inhabited T] :
    (∀ (tasks : List (Task T M)) (c : Int) (s : BatchState T M),
        RunAllReach tasks c s → BatchTerminal s →
          s.results.length = tasks.length ∧
          s.results = tasks.map (fun t => some (execOutcome t))) ∧
    (∀ t : Task T M, (execOutcome t).Metadata = t.Metadata) ∧
    BatchTerminal (batchInit T M 0) ∧ (batchInit T M 0).results = [] := by
  refine ⟨?_, ?_, ?_, rfl⟩
  · intro tasks c s h hterm
    have hr := batch_final_results h hterm
    refine ⟨?_, hr⟩
    rw [hr]
    simp
  · intro t
    rcases t with ⟨m, r⟩
    cases r <;> rfl
  · intro pc hpc
    simp [batchInit] at hpc

theorem runAll_results_index_aligned_witness :
    batchDemoFinal.results.length = demoTasks.length ∧
    batchDemoFinal.results = demoTasks.map (fun t => some (execOutcome t)) :=
  runAll_results_index_aligned.1 demoTasks 2 batchDemoFinal batchDemoTrace
    (by decide)

/-- C2: if task `k` panics with description `msg`, then in every completed
`RunAll` interleaving cell `k` holds the recovered outcome — zero value and
error `panic: msg` — while every other task's cell holds its own correctly
computed outcome; and in every `RunAllStream` interleaving that reached the
close of the channel, the recovered outcome of task `k` was sent on the
channel. The panic is absorbed by the `recover` boundary: the machine has no
transition that aborts the call, and terminal states as above exist. -/
theorem panic_recovered_and_isolated {T M : Type} [Inhabited T]
    (tasks : List (Task T M)) (c : Int) (k : Nat) (t : Task T M)
    (msg : String) (hk : tasks[k]? = some t)
    (hrun : t.Run = RunBehavior.panics msg) :
    (∀ s : BatchState T M, RunAllReach tasks c s → BatchTerminal s →
        s.results[k]? =
          some (some ⟨t.Metadata, ⟨default, some ("panic: " ++ msg)⟩⟩) ∧
        ∀ (j : Nat) (t₂ : Task T M), j ≠ k → tasks[j]? = some t₂ →
          s.results[j]? = some (some (execOutcome t₂))) ∧
    (∀ s : StreamState T M, RunAllStreamReach tasks c s → s.closed = true →
        (⟨t.Metadata, ⟨default, some ("panic: " ++ msg)⟩⟩ :
          TaskExecution T M) ∈ s.sent) := by
  have hexec : execOutcome t =
      ⟨t.Metadata, ⟨default, some ("panic: " ++ msg)⟩⟩ := by
    unfold execOutcome
    rw [hrun]
  constructor
  · intro s h hterm
    have hr := batch_final_results h hterm
    constructor
    · rw [hr, List.getElem?_map, hk]
      simp [hexec]
    · intro j t₂ _ hj
      rw [hr, List.getElem?_map, hj]
      simp
  · intro s h hcl
    have hperm := (stream_closed_perm h hcl).1
    rw [← hexec]
    refine hperm.mem_iff.mpr ?_
    exact List.mem_map_of_mem _ (List.getElem?_mem hk)

theorem panic_recovered_and_isolated_witness :
    batchDemoFinal.results[1]? =
      some (some ⟨panicDemoTask.Metadata,
        ⟨default, some ("panic: " ++ "boom")⟩⟩) ∧
    (⟨panicDemoTask.Metadata, ⟨default, some ("panic: " ++ "boom")⟩⟩ :
      TaskExecution Nat Nat) ∈ streamDemoFinal.sent := by
  have H := panic_recovered_and_isolated demoTasks 2 1 panicDemoTask "boom"
    (by decide) rfl
  exact ⟨(H.1 batchDemoFinal batchDemoTrace (by decide)).1,
    H.2 streamDemoFinal streamDemoTrace rfl⟩

/-- C9: both `RunAll` and `RunAllStream` acquire with
`context.Background()` (`backgroundCtxDone`, never done), so along their
interleavings the `semaphore acquire failed` branch — the only source of an
`Acquire` error for a weight-1 acquire on a semaphore of any capacity — is
never executed: its ghost execution counter stays 0 in every reachable
state, for every capacity. -/
theorem acquire_failure_branch_unreachable {T M : Type} [Inhabited T]
    (tasks : List (Task T M)) (c : Int) :
    (∀ s : BatchState T M, RunAllReach tasks c s → s.semFails = 0) ∧
    (∀ s : StreamState T M, RunAllStreamReach tasks c s → s.semFails = 0) := by
  constructor
  · intro s h
    exact (batchInv_reach h).2.2.2.1
  · intro s h
    exact (streamInv_reach h).2.2.1

theorem acquire_failure_branch_unreachable_witness :
    batchDemoFinal.semFails = 0 ∧ streamDemoFinal.semFails = 0 :=
  ⟨(acquire_failure_branch_unreachable demoTasks 2).1 batchDemoFinal
      batchDemoTrace,
   (acquire_failure_branch_unreachable demoTasks 2).2 streamDemoFinal
      streamDemoTrace⟩

/-- C3: in every `RunAllStream` interleaving, once the channel is closed it
has carried exactly `tasks.length` outcomes, and they are a permutation of
the per-task outcomes — so each task's outcome (and hence its metadata) was
delivered exactly once, no outcome twice — and the close can only happen
after every task's goroutine has finished; for the empty input the machine
closes the channel immediately with zero items sent. -/
theorem runAllStream_delivers_all_once {T M : Type} [Inhabited T] :
    (∀ (tasks : List (Task T M)) (c : Int) (s : StreamState T M),
        RunAllStreamReach tasks c s → s.closed = true →
          s.sent.length = tasks.length ∧
          List.Perm s.sent (tasks.map (fun t => execOutcome t)) ∧
          List.Perm (s.sent.map (fun o => o.Metadata))
            (tasks.map (fun t => t.Metadata)) ∧
          ∀ pc ∈ s.pcs, pc = PC.done) ∧
    RunAllStreamReach ([] : List (Task T M)) defaultMaxConcurrency
      ⟨[], [], true, [], 0⟩ := by
  constructor
  · intro tasks c s h hcl
    obtain ⟨hperm, hall⟩ := stream_closed_perm h hcl
    refine ⟨by rw [hperm.length_eq]; simp, hperm, ?_, hall⟩
    have h₁ := hperm.map (fun o : TaskExecution T M => o.Metadata)
    have h₂ : (tasks.map (fun t => execOutcome t)).map
        (fun o : TaskExecution T M => o.Metadata) =
        tasks.map (fun t => t.Metadata) := by
      rw [List.map_map]
      refine List.map_congr_left ?_
      intro t _
      rcases t with ⟨m, r⟩
      cases r <;> rfl
    rw [h₂] at h₁
    exact h₁
  · exact Reach.tail Reach.refl
      (StreamStep.closeChan (streamInit T M 0)
        (by intro pc hpc; simp [streamInit] at hpc) rfl)

theorem runAllStream_delivers_all_once_witness :
    streamDemoFinal.sent.length = demoTasks.length ∧
    List.Perm streamDemoFinal.sent
      (demoTasks.map (fun t => execOutcome t)) := by
  have H := runAllStream_delivers_all_once.1 demoTasks 2 streamDemoFinal
    streamDemoTrace rfl
  exact ⟨H.1, H.2.1⟩

/-- C4: along every interleaving of a `RunAll` or `RunAllStream` call with
nonnegative capacity `c`, the number of goroutines inside the span from a
successful `sem.Acquire` to the matching `sem.Release` — the span containing
the invocation of `task.Run()` — never exceeds `c`; moreover any step that
moves a waiting goroutine to running requires a free unit
(`countRunning < c`) at that moment: tasks beyond the ceiling wait. -/
theorem concurrency_ceiling_respected {T M : Type} [Inhabited T]
    (tasks : List (Task T M)) (c : Int) (hc : 0 ≤ c) :
    (∀ s : BatchState T M, RunAllReach tasks c s →
        (countRunning s.pcs : Int) ≤ c) ∧
    (∀ s : StreamState T M, RunAllStreamReach tasks c s →
        (countRunning s.pcs : Int) ≤ c) ∧
    (∀ s₁ s₂ : BatchState T M, BatchStep tasks c backgroundCtxDone s₁ s₂ →
        ∀ i : Nat, s₁.pcs[i]? = some PC.waiting →
          s₂.pcs[i]? = some PC.running → (countRunning s₁.pcs : Int) < c) ∧
    (∀ s₁ s₂ : StreamState T M, StreamStep tasks c backgroundCtxDone s₁ s₂ →
        ∀ i : Nat, s₁.pcs[i]? = some PC.waiting →
          s₂.pcs[i]? = some PC.running → (countRunning s₁.pcs : Int) < c) := by
  have hmax : max c 0 = c := max_eq_left hc
  refine ⟨?_, ?_, ?_, ?_⟩
  · intro s h
    have := batch_countRunning_le h
    rwa [hmax] at this
  · intro s h
    have := stream_countRunning_le h
    rwa [hmax] at this
  · intro s₁ s₂ hstep i hw hr
    cases hstep with
    | acquire j _ hpc hctx hsem =>
        exact hsem
    | acquireFail j t _ hpc ht hctx =>
        simp [backgroundCtxDone] at hctx
    | finish j t _ hpc ht =>
        by_cases hij : j = i
        · subst hij
          rw [List.getElem?_set_self (lt_of_getElem?_some hpc)] at hr
          simp at hr
        · rw [List.getElem?_set_ne hij, hw] at hr
          simp at hr
  · intro s₁ s₂ hstep i hw hr
    cases hstep with
    | acquire j _ hpc hctx hsem =>
        exact hsem
    | acquireFail j t _ hpc ht hctx hbuf =>
        simp [backgroundCtxDone] at hctx
    | finish j t _ hpc ht hbuf =>
        by_cases hij : j = i
        · subst hij
          rw [List.getElem?_set_self (lt_of_getElem?_some hpc)] at hr
          simp at hr
        · rw [List.getElem?_set_ne hij, hw] at hr
          simp at hr
    | closeChan _ hall hopen =>
        rw [hw] at hr
        simp at hr

theorem concurrency_ceiling_respected_witness :
    (countRunning batchDemoFinal.pcs : Int) ≤ 2 ∧
    (countRunning streamDemoFinal.pcs : Int) ≤ 2 := by
  have H := concurrency_ceiling_respected demoTasks 2 (by decide)
  exact ⟨H.1 batchDemoFinal batchDemoTrace,
    H.2.1 streamDemoFinal streamDemoTrace⟩

/-- C8: in every reachable state of either executor the ghost counter of
invocations of task `i`'s `Run` function is at most 1, and in every
completed call it is exactly 1 for every index. A goroutine invokes `Run`
as a single atomic step of its own thread, so it is in particular never
concurrent with itself. -/
theorem run_invoked_exactly_once {T M : Type} [Inhabited T]
    (tasks : List (Task T M)) (c : Int) :
    (∀ s : BatchState T M, RunAllReach tasks c s →
        (∀ i : Nat, s.runs[i]?.getD 0 ≤ 1) ∧
        (BatchTerminal s →
          ∀ i : Nat, i < tasks.length → s.runs[i]? = some 1)) ∧
    (∀ s : StreamState T M, RunAllStreamReach tasks c s →
        (∀ i : Nat, s.runs[i]?.getD 0 ≤ 1) ∧
        ((∀ pc ∈ s.pcs, pc = PC.done) →
          ∀ i : Nat, i < tasks.length → s.runs[i]? = some 1)) := by
  constructor
  · intro s h
    obtain ⟨hlp, _, hlu, _, hat⟩ := batchInv_reach h
    constructor
    · intro i
      by_cases hi : i < tasks.length
      · by_cases hd : s.pcs[i]? = some PC.done
        · obtain ⟨t, _, _, h₁⟩ := (hat i hi).1 hd
          rw [h₁]
          simp
        · rw [((hat i hi).2 hd).2]
          simp
      · rw [List.getElem?_eq_none (by omega)]
        simp
    · intro hterm i hi
      have hip : i < s.pcs.length := by omega
      have hpc : s.pcs[i]? = some s.pcs[i] := List.getElem?_eq_getElem hip
      have hd : s.pcs[i]? = some PC.done := by
        rw [hpc, hterm _ (List.getElem?_mem hpc)]
      obtain ⟨t, _, _, h₁⟩ := (hat i hi).1 hd
      exact h₁
  · intro s h
    obtain ⟨hlp, hlu, _, _, _, hat⟩ := streamInv_reach h
    constructor
    · intro i
      by_cases hi : i < tasks.length
      · by_cases hd : s.pcs[i]? = some PC.done
        · rw [(hat i hi).1 hd]
          simp
        · rw [(hat i hi).2 hd]
          simp
      · rw [List.getElem?_eq_none (by omega)]
        simp
    · intro hterm i hi
      have hip : i < s.pcs.length := by omega
      have hpc : s.pcs[i]? = some s.pcs[i] := List.getElem?_eq_getElem hip
      have hd : s.pcs[i]? = some PC.done := by
        rw [hpc, hterm _ (List.getElem?_mem hpc)]
      exact (hat i hi).1 hd

theorem run_invoked_exactly_once_witness :
    batchDemoFinal.runs[0]? = some 1 ∧ streamDemoFinal.runs[0]? = some 1 := by
  have H := run_invoked_exactly_once demoTasks 2
  exact ⟨(H.1 batchDemoFinal batchDemoTrace).2 (by decide) 0 (by decide),
    (H.2 streamDemoFinal streamDemoTrace).2 (by decide) 0 (by decide)⟩

/-- C10: the channel of `RunAllStream` is buffered with capacity
`tasks.length`, and at most `tasks.length` sends ever happen, so whenever a
goroutine has not finished there is still a free buffer slot — its send
cannot block even if the consumer never receives — and, for capacity at
least 1, every reachable non-terminal state has an enabled step while every
step strictly decreases `streamMeasure`: all goroutines spawned by the call
reach `done` and the closing goroutine closes the channel. -/
theorem stream_buffer_capacity_no_leak {T M : Type} [Inhabited T]
    (tasks : List (Task T M)) (c : Int) (hc : 1 ≤ c) :
    (∀ s₁ s₂ : StreamState T M, StreamStep tasks c backgroundCtxDone s₁ s₂ →
        streamMeasure s₂ < streamMeasure s₁) ∧
    (∀ s : StreamState T M, RunAllStreamReach tasks c s →
        ¬ StreamTerminal s →
          ∃ s₂, StreamStep tasks c backgroundCtxDone s s₂) ∧
    (∀ s : StreamState T M, RunAllStreamReach tasks c s →
        s.sent.length ≤ tasks.length) ∧
    (∀ s : StreamState T M, RunAllStreamReach tasks c s →
        ∀ (i : Nat) (pc₀ : PC), s.pcs[i]? = some pc₀ → pc₀ ≠ PC.done →
          s.sent.length < tasks.length) := by
  refine ⟨?_, ?_, ?_, ?_⟩
  · intro s₁ s₂ hstep
    exact streamMeasure_dec hstep
  · intro s h hnt
    exact stream_progress hc h hnt
  · intro s h
    obtain ⟨hlp, _, _, hperm, _, _⟩ := streamInv_reach h
    have h₁ : s.sent.length = (doneOuts tasks s.pcs).length :=
      hperm.length_eq
    rw [doneOuts_length tasks s.pcs hlp] at h₁
    have h₂ := countDone_le_length s.pcs
    omega
  · intro s h i pc₀ hi hne
    exact stream_send_space h hi hne

theorem stream_buffer_capacity_no_leak_witness :
    streamMeasure streamDemoFinal < streamMeasure sDemo4 ∧
    (∃ s₂, StreamStep demoTasks 2 backgroundCtxDone
      (streamInit Nat Nat demoTasks.length) s₂) ∧
    streamDemoFinal.sent.length ≤ demoTasks.length := by
  have H := stream_buffer_capacity_no_leak demoTasks 2 (by decide)
  refine ⟨H.1 sDemo4 streamDemoFinal
      (StreamStep.closeChan sDemo4 (by decide) rfl), ?_, ?_⟩
  · exact H.2.1 (streamInit Nat Nat demoTasks.length) Reach.refl (by decide)
  · exact H.2.2.1 streamDemoFinal streamDemoTrace

/-- C5 counterexample: a task whose `Run` returns the pair `(42, "boom")` —
a non-nil error together with a non-zero value, which Go's signature
`func() (T, error)` permits — gets an outcome carrying the value 42, not the
zero value of `T` (here 0): run_all.go lines 80-88 store `Value: v, Err:
err` exactly as returned, without zeroing on error. -/
theorem failure_value_not_zeroed_counterexample :
    (execOutcome (⟨0, RunBehavior.ret 42 (some "boom")⟩ :
        Task Nat Nat)).Result.Err = some "boom" ∧
    (execOutcome (⟨0, RunBehavior.ret 42 (some "boom")⟩ :
        Task Nat Nat)).Result.Value = 42 ∧
    (default : Nat) = 0 ∧ (42 : Nat) ≠ 0 := by
  decide

/-- C5 as amended: only the panic-recovery outcome and the admission-failure
outcome hold the zero value of `T`; a task whose `Run` returns normally gets
exactly the returned pair stored — value and error as returned, even when
the error is non-nil — and in particular a successful task's outcome holds
its value with a nil error. -/
theorem failure_value_semantics {T M : Type} [Inhabited T] (meta : M)
    (msg ctxErr : String) (v : T) (e : GoErr) :
    execOutcome (⟨meta, RunBehavior.panics msg⟩ : Task T M) =
      ⟨meta, ⟨default, some ("panic: " ++ msg)⟩⟩ ∧
    semFailOutcome ctxErr (⟨meta, RunBehavior.panics msg⟩ : Task T M) =
      ⟨meta, ⟨default, some ("semaphore acquire failed: " ++ ctxErr)⟩⟩ ∧
    execOutcome (⟨meta, RunBehavior.ret v e⟩ : Task T M) = ⟨meta, ⟨v, e⟩⟩ ∧
    execOutcome (⟨meta, RunBehavior.ret v none⟩ : Task T M) =
      ⟨meta, ⟨v, none⟩⟩ :=
  ⟨rfl, rfl, rfl, rfl⟩

/-- C6: the claim is violated by options.go. `setOpts` copies the pointer
`defaultOpts` (`opts := defaultOpts`) and applies each option closure to the
shared pointee, so `WithMaxConcurrency 3` in one call permanently mutates
the package-level default: a later call with no options observes ceiling 3,
not the documented default 10. -/
theorem setOpts_mutates_shared_default :
    (setOpts [] (setOpts [WithMaxConcurrency 3] defaultOpts).2).1 =
      concurrency.mk 3 ∧
    defaultOpts.maxConcurrency = 10 ∧ (3 : Int) ≠ 10 := by
  decide

/-- C7: the claim is violated by the code. Neither `WithMaxConcurrency` nor
the executors validate the limit, and `RunAll` returns no error value at
all. With a non-positive capacity, every worker's `sem.Acquire(ctx, 1)` asks
for more than the semaphore's size, which for the `golang.org/x/sync`
semaphore blocks on `ctx.Done()` — forever, for the background context. In
the model: no step is ever enabled, so the only reachable state is the
initial one — no task's `Run` starts (that much of the claim holds), but no
error is produced either and `wg.Wait()` never returns (the batch call
deadlocks; the stream call's channel never receives an item or a close). -/
theorem nonpositive_limit_deadlocks {T M : Type} [Inhabited T]
    (tasks : List (Task T M)) (c : Int) (hc : c ≤ 0) (hne : tasks ≠ []) :
    (∀ s : BatchState T M, RunAllReach tasks c s →
        s = batchInit T M tasks.length) ∧
    ¬ BatchTerminal (batchInit T M tasks.length) ∧
    (∀ s : StreamState T M, RunAllStreamReach tasks c s →
        s = streamInit T M tasks.length) ∧
    ¬ StreamTerminal (streamInit T M tasks.length) := by
  have hlen : tasks.length ≠ 0 := by
    simpa [List.length_eq_zero] using hne
  have hwmem : PC.waiting ∈ List.replicate tasks.length PC.waiting := by
    rw [List.mem_replicate]
    exact ⟨hlen, rfl⟩
  refine ⟨?_, ?_, ?_, ?_⟩
  · intro s h
    induction h with
    | refl => rfl
    | @tail s₁ s₂ _ hstep ih =>
        subst ih
        cases hstep with
        | acquire i _ hpc hctx hsem =>
            rw [show (batchInit T M tasks.length).pcs =
              List.replicate tasks.length PC.waiting from rfl,
              countRunning_replicate_waiting] at hsem
            omega
        | acquireFail i t _ hpc ht hctx =>
            simp [backgroundCtxDone] at hctx
        | finish i t _ hpc ht =>
            rw [show (batchInit T M tasks.length).pcs =
              List.replicate tasks.length PC.waiting from rfl,
              List.getElem?_replicate] at hpc
            by_cases hi : i < tasks.length
            · rw [if_pos hi] at hpc
              simp at hpc
            · rw [if_neg hi] at hpc
              simp at hpc
  · intro hterm
    have := hterm PC.waiting hwmem
    simp at this
  · intro s h
    induction h with
    | refl => rfl
    | @tail s₁ s₂ _ hstep ih =>
        subst ih
        cases hstep with
        | acquire i _ hpc hctx hsem =>
            rw [show (streamInit T M tasks.length).pcs =
              List.replicate tasks.length PC.waiting from rfl,
              countRunning_replicate_waiting] at hsem
            omega
        | acquireFail i t _ hpc ht hctx hbuf =>
            simp [backgroundCtxDone] at hctx
        | finish i t _ hpc ht hbuf =>
            rw [show (streamInit T M tasks.length).pcs =
              List.replicate tasks.length PC.waiting from rfl,
              List.getElem?_replicate] at hpc
            by_cases hi : i < tasks.length
            · rw [if_pos hi] at hpc
              simp at hpc
            · rw [if_neg hi] at hpc
              simp at hpc
        | closeChan _ hall hopen =>
            have := hall PC.waiting hwmem
            simp at this
  · intro hterm
    have := hterm.1 PC.waiting hwmem
    simp at this

theorem nonpositive_limit_deadlocks_witness :
    batchInit Nat Nat demoTasks.length =
      batchInit Nat Nat demoTasks.length ∧
    ¬ BatchTerminal (batchInit Nat Nat demoTasks.length) := by
  have H := nonpositive_limit_deadlocks demoTasks 0 (by decide) (by decide)
  exact ⟨H.1 (batchInit Nat Nat demoTasks.length) Reach.refl, H.2.1⟩

end Mdfm.Concurrent
